import Mathlib

/-!
Verification of the storage substrate of a small SQL database
(Bitcask-style log engine + MVCC transaction layer + key codec),
shallowly embedded from the Rust sources.

Bytes are modelled as `List Nat` (each entry a byte value), the ordered
key-value engine (`MemoryEngine`, a `BTreeMap<Vec<u8>, Vec<u8>>`) as an
association list sorted by strict lexicographic key order, and fallible
operations return `Except Error`.  `bincode::serialize` (bincode 1.x:
fix-width little-endian integers, `u32` enum tags, `u64` sequence
lengths) and the order-preserving key codec of `keycode.rs` are both
embedded, since the two disagree and several claims hinge on that.
-/

namespace MiniSqldb

abbrev Bytes := List Nat

/-- Strict byte-lexicographic order on byte strings (the order of
`Vec<u8>`, hence of `BTreeMap<Vec<u8>, _>` iteration). -/
def lexLt : Bytes → Bytes → Bool
  | [], [] => false
  | [], _ :: _ => true
  | _ :: _, [] => false
  | a :: as, b :: bs => if a < b then true else if a = b then lexLt as bs else false

/-- Non-strict byte-lexicographic order. -/
def lexLe (x y : Bytes) : Bool := lexLt x y || x = y

/-- Error type of `error.rs` (`ParserError`, `InternalError`, `WriteConflict`);
the human-readable messages are abbreviated. -/
inductive Error where
  | ParserError (msg : String)
  | InternalError (msg : String)
  | WriteConflict
deriving DecidableEq, Repr

/-- Little-endian fixed 8-byte encoding of a `u64` (bincode 1.x integer
encoding, used by `bincode::serialize` for version numbers and lengths). -/
def u64LE (n : Nat) : Bytes :=
  [n % 256, n / 256 % 256, n / 256 ^ 2 % 256, n / 256 ^ 3 % 256,
   n / 256 ^ 4 % 256, n / 256 ^ 5 % 256, n / 256 ^ 6 % 256, n / 256 ^ 7 % 256]

/-- Big-endian fixed 8-byte encoding of a `u64` (the `serialize_u64` of
`keycode.rs`, which preserves numeric order lexicographically). -/
def u64BE (n : Nat) : Bytes := (u64LE n).reverse

/-- Little-endian fixed 4-byte encoding of a `u32` (bincode 1.x enum tag). -/
def u32LE (n : Nat) : Bytes := [n % 256, n / 256 % 256, n / 256 ^ 2 % 256, n / 256 ^ 3 % 256]

/-- Value of a little-endian byte string (inverse of `u64LE`/`u32LE` on
fixed-width slices). -/
def leNat : Bytes → Nat
  | [] => 0
  | b :: rest => b + 256 * leNat rest

/-- Read a `u64` from the first 8 bytes (bincode 1.x deserializer for `u64`;
trailing bytes are permitted by `bincode::deserialize`). -/
def decU64LE (b : Bytes) : Option (Nat × Bytes) :=
  match b with
  | b0 :: b1 :: b2 :: b3 :: b4 :: b5 :: b6 :: b7 :: rest =>
      some (leNat [b0, b1, b2, b3, b4, b5, b6, b7], rest)
  | _ => none

/-- Take exactly `n` bytes, failing when fewer are available. -/
def takeExact (n : Nat) (b : Bytes) : Option (Bytes × Bytes) :=
  if n ≤ b.length then some (b.take n, b.drop n) else none

/-- The four MVCC key variants of `mvcc.rs` (`NextVersion`, `TxnActive`,
`TxnWrite`, `Version`). -/
inductive MvccKey where
  | NextVersion
  | TxnActive (v : Nat)
  | TxnWrite (v : Nat) (key : Bytes)
  | Version (key : Bytes) (v : Nat)
deriving DecidableEq, Repr

/-- The `MvccKey::encode` of `mvcc.rs`: it calls `bincode::serialize`, i.e.
a 4-byte little-endian `u32` variant tag, `u64` fields as 8 little-endian
bytes, and `Vec<u8>` fields as a little-endian `u64` length followed by the
raw bytes. -/
def MvccKey.encode : MvccKey → Bytes
  | .NextVersion => u32LE 0
  | .TxnActive v => u32LE 1 ++ u64LE v
  | .TxnWrite v k => u32LE 2 ++ u64LE v ++ u64LE k.length ++ k
  | .Version k v => u32LE 3 ++ u64LE k.length ++ k ++ u64LE v

/-- The `MvccKeyPrefix` variants of `mvcc.rs`. -/
inductive MvccKeyPfx where
  | NextVersion
  | TxnActive
  | TxnWrite (v : Nat)
  | Version (key : Bytes)
deriving DecidableEq, Repr

/-- The `MvccKeyPrefix::encode` of `mvcc.rs` (also `bincode::serialize`). -/
def MvccKeyPfx.encode : MvccKeyPfx → Bytes
  | .NextVersion => u32LE 0
  | .TxnActive => u32LE 1
  | .TxnWrite v => u32LE 2 ++ u64LE v
  | .Version k => u32LE 3 ++ u64LE k.length ++ k

/-- The `MvccKey::decode` of `mvcc.rs` (bincode 1.x deserialization;
trailing bytes permitted, `none` models a decode error). -/
def mvccDecode (b : Bytes) : Option MvccKey :=
  match b with
  | t0 :: t1 :: t2 :: t3 :: rest =>
    match leNat [t0, t1, t2, t3] with
    | 0 => some .NextVersion
    | 1 => (decU64LE rest).map (fun p => .TxnActive p.1)
    | 2 =>
      match decU64LE rest with
      | none => none
      | some (v, r1) =>
        match decU64LE r1 with
        | none => none
        | some (len, r2) =>
          match takeExact len r2 with
          | none => none
          | some (k, _) => some (.TxnWrite v k)
    | 3 =>
      match decU64LE rest with
      | none => none
      | some (len, r1) =>
        match takeExact len r1 with
        | none => none
        | some (k, r2) =>
          match decU64LE r2 with
          | none => none
          | some (v, _) => some (.Version k v)
    | _ => none
  | _ => none

/-- The `serialize_bytes` of `keycode.rs`: every `0x00` byte is escaped as
`0x00 0xFF`, and the string is terminated with `0x00 0x00`. -/
def escBytes : Bytes → Bytes
  | [] => [0, 0]
  | b :: rest => if b = 0 then 0 :: 255 :: escBytes rest else b :: escBytes rest

/-- Modelled from the spec: the byte-string field decoder of the
order-preserving codec (section 4.2) is not present under `src/`
(`keycode.rs` only contains the serializer); per the spec it reads until
`0x00 0x00`, un-escaping `0x00 0xFF` back to `0x00`, and returns the
decoded string together with the remaining input. -/
def descBytes : Bytes → Option (Bytes × Bytes)
  | [] => none
  | b :: rest =>
    if b = 0 then
      match rest with
      | [] => none
      | c :: rest2 =>
        if c = 0 then some ([], rest2)
        else if c = 255 then (descBytes rest2).map (fun p => (0 :: p.1, p.2))
        else none
    else (descBytes rest).map (fun p => (b :: p.1, p.2))

/-- The order-preserving codec of `keycode.rs` applied to an `MvccKey`
(this is what the repository's `keycode::serialize` computes on these
values, pinned by the tests in `keycode.rs`): a one-byte variant tag,
`u64` fields big-endian, byte-string fields escaped and terminated. -/
def keycodeEncode : MvccKey → Bytes
  | .NextVersion => [0]
  | .TxnActive v => 1 :: u64BE v
  | .TxnWrite v k => 2 :: (u64BE v ++ escBytes k)
  | .Version k v => 3 :: (escBytes k ++ u64BE v)

/-! ## The ordered key-value engine (`MemoryEngine` over `BTreeMap<Vec<u8>, Vec<u8>>`) -/

/-- Engine state: an association list of (key, value) byte strings, kept
sorted by strict lexicographic key order by `engSet`. -/
abbrev Eng := List (Bytes × Bytes)

/-- The engine `set` (BTreeMap insert): replace an existing entry or insert
at the sorted position. -/
def engSet : Eng → Bytes → Bytes → Eng
  | [], k, v => [(k, v)]
  | (k', v') :: rest, k, v =>
    if lexLt k k' = true then (k, v) :: (k', v') :: rest
    else if k = k' then (k, v) :: rest
    else (k', v') :: engSet rest k v

/-- The engine `get` (BTreeMap lookup). -/
def engGet : Eng → Bytes → Option Bytes
  | [], _ => none
  | (k', v') :: rest, k => if k' = k then some v' else engGet rest k

/-- The engine `delete` (BTreeMap remove; absent key is not an error). -/
def engDel : Eng → Bytes → Eng
  | [], _ => []
  | (k', v') :: rest, k => if k' = k then engDel rest k else (k', v') :: engDel rest k

/-- The engine `scan(from..=to)`: all entries whose key lies in the closed
range, in engine (ascending) order. -/
def engScan (e : Eng) (lo hi : Bytes) : List (Bytes × Bytes) :=
  e.filter (fun kv => lexLe lo kv.1 && lexLe kv.1 hi)

/-- The upper-bound computation of `Engine::scan_prefix` (`engine.rs`),
expressed on the reversed byte string: drop trailing `0xFF` bytes and
increment the last remaining one; `none` when every byte is `0xFF`
(unbounded scan). -/
def incrRev : Bytes → Option Bytes
  | [] => none
  | b :: rest => if b < 255 then some ((b + 1) :: rest) else incrRev rest

/-- Membership test of a key in the range scanned by
`Engine::scan_prefix p` (`engine.rs`): empty `p` scans everything;
otherwise keys from `p` (inclusive) up to the computed successor bound
(exclusive), or unbounded above when every byte of `p` is `0xFF`. -/
def pfxRangePred (p : Bytes) (k : Bytes) : Bool :=
  if p.isEmpty then true
  else
    match incrRev p.reverse with
    | none => lexLe p k
    | some r => lexLe p k && lexLt k r.reverse

/-- The engine `scan_prefix` of `engine.rs`, as the range scan it performs. -/
def engScanPfx (e : Eng) (p : Bytes) : List (Bytes × Bytes) :=
  e.filter (fun kv => pfxRangePred p kv.1)

/-! ## The MVCC transaction layer (`mvcc.rs`) -/

/-- The `TransactionState` of `mvcc.rs`: own version plus the snapshot of
versions active at begin (the `HashSet` is modelled as the scanned list). -/
structure TxnState where
  version : Nat
  active : List Nat
deriving DecidableEq, Repr

/-- The visibility rule `TransactionState::is_visible`. -/
def isVisible (s : TxnState) (v : Nat) : Bool :=
  !(s.active.contains v) && Nat.ble v s.version

/-- Minimum of the active-version set with a default for the empty set
(`active_versions.iter().min().copied().unwrap_or(default)`). -/
def minD (l : List Nat) (d : Nat) : Nat :=
  match l with
  | [] => d
  | a :: rest => rest.foldl min a

/-- Payload encoding of a stored cell: `bincode::serialize` of the
`Option<Vec<u8>>` written by `write_inner` (tag byte 0 = tombstone,
1 = present followed by a `u64` length and the bytes). -/
def encOptBytes : Option Bytes → Bytes
  | none => [0]
  | some v => 1 :: (u64LE v.length ++ v)

/-- Payload decoding (`bincode::deserialize::<Option<Vec<u8>>>`); outer
`none` models a decode error. -/
def decOptBytes (b : Bytes) : Option (Option Bytes) :=
  match b with
  | 0 :: _ => some none
  | 1 :: rest =>
    match decU64LE rest with
    | none => none
    | some (len, r1) =>
      match takeExact len r1 with
      | none => none
      | some (v, _) => some (some v)
  | _ => none

/-- Decode loop of `MvccTransaction::scan_active`: every scanned key must
decode to `TxnActive(v)`; collect the versions. -/
def scanActiveGo : List (Bytes × Bytes) → Except Error (List Nat)
  | [] => .ok []
  | (k, _) :: rest =>
    match mvccDecode k with
    | some (.TxnActive v) => (scanActiveGo rest).map (fun l => v :: l)
    | _ => .error (.InternalError "unexpected Mvcc key")

/-- The `MvccTransaction::scan_active` of `mvcc.rs`. -/
def scanActive (e : Eng) : Except Error (List Nat) :=
  scanActiveGo (engScanPfx e MvccKeyPfx.TxnActive.encode)

/-- The `MvccTransaction::begin` of `mvcc.rs`: read and bump `NextVersion`,
snapshot the active set, then insert the own `TxnActive` marker. -/
def txnBegin (e : Eng) : Except Error (Eng × TxnState) := do
  let nextVersion ←
    match engGet e MvccKey.NextVersion.encode with
    | some value =>
      match decU64LE value with
      | some (v, _) => Except.ok v
      | none => Except.error (Error.InternalError "deserialize")
    | none => Except.ok 0
  let e1 := engSet e MvccKey.NextVersion.encode (u64LE (nextVersion + 1))
  let active ← scanActive e1
  let e2 := engSet e1 (MvccKey.TxnActive nextVersion).encode []
  pure (e2, TxnState.mk nextVersion active)

/-- Scan loop of `MvccTransaction::get`: walk the reversed range, return
the payload of the first visible `Version` entry, error on any key that is
not a `Version`. -/
def getLoop (s : TxnState) : List (Bytes × Bytes) → Except Error (Option Bytes)
  | [] => .ok none
  | (k, value) :: rest =>
    match mvccDecode k with
    | some (.Version _ ver) =>
      if isVisible s ver then
        match decOptBytes value with
        | some payload => .ok payload
        | none => .error (.InternalError "deserialize")
      else getLoop s rest
    | _ => .error (.InternalError "unexpected key")

/-- The `MvccTransaction::get` of `mvcc.rs`: reverse scan of
`Version(key, 0) ..= Version(key, self.version)`. -/
def txnGet (e : Eng) (s : TxnState) (key : Bytes) : Except Error (Option Bytes) :=
  getLoop s ((engScan e (MvccKey.Version key 0).encode
    (MvccKey.Version key s.version).encode).reverse)

/-- Constant `u64::MAX`. -/
def u64MAX : Nat := 2 ^ 64 - 1

/-- Constant `u32::MAX` (the Bitcask tombstone sentinel). -/
def u32MAX : Nat := 2 ^ 32 - 1

/-- Conflict-detection step of `MvccTransaction::write_inner` (`mvcc.rs`):
inspect the last entry of `Version(key, lo) ..= Version(key, u64::MAX)`
with `lo = min(active) or version + 1`; a last entry that is not visible
is a `WriteConflict`, one that is not a `Version` key an internal error. -/
def writeConflictCheck (e : Eng) (s : TxnState) (key : Bytes) : Except Error Unit :=
  match (engScan e (MvccKey.Version key (minD s.active (s.version + 1))).encode
      (MvccKey.Version key u64MAX).encode).getLast? with
  | some (k, _) =>
    match mvccDecode k with
    | some (.Version _ ver) =>
      if isVisible s ver then .ok () else .error Error.WriteConflict
    | _ => .error (.InternalError "unexpected Mvcc key")
  | none => .ok ()

/-- The `MvccTransaction::write_inner` of `mvcc.rs`: run the conflict
check, then write the `TxnWrite(version, key)` marker (empty value) and
the `Version(key, version)` cell with the serialized `Option` payload. -/
def writeInner (e : Eng) (s : TxnState) (key : Bytes) (value : Option Bytes) :
    Except Error Eng :=
  (writeConflictCheck e s key).bind (fun _ =>
    .ok (engSet (engSet e (MvccKey.TxnWrite s.version key).encode [])
      ((MvccKey.Version key s.version).encode) (encOptBytes value)))

/-- The `MvccTransaction::set`. -/
def txnSetOp (e : Eng) (s : TxnState) (k v : Bytes) : Except Error Eng :=
  writeInner e s k (some v)

/-- The `MvccTransaction::delete`. -/
def txnDelOp (e : Eng) (s : TxnState) (k : Bytes) : Except Error Eng :=
  writeInner e s k none

/-- The `MvccTransaction::commit` of `mvcc.rs`: delete every scanned
`TxnWrite(version, *)` key, then the `TxnActive(version)` marker.  With the
in-memory engine no step can fail, so the result state is returned
directly (the Rust function returns `Ok`). -/
def txnCommit (e : Eng) (s : TxnState) : Eng :=
  engDel
    (((engScanPfx e (MvccKeyPfx.TxnWrite s.version).encode).map Prod.fst).foldl engDel e)
    (MvccKey.TxnActive s.version).encode

/-- Delete-key accumulation of `MvccTransaction::rollback`: each scanned
key must decode to `TxnWrite(_, raw)`; push `Version(raw, version)` and the
scanned key itself. -/
def rollbackKeys (v : Nat) : List (Bytes × Bytes) → Except Error (List Bytes)
  | [] => .ok []
  | (k, _) :: rest =>
    match mvccDecode k with
    | some (.TxnWrite _ raw) =>
      (rollbackKeys v rest).map (fun l => (MvccKey.Version raw v).encode :: k :: l)
    | _ => .error (.InternalError "unexpected key")

/-- The `MvccTransaction::rollback` of `mvcc.rs`. -/
def txnRollback (e : Eng) (s : TxnState) : Except Error Eng := do
  let dels ← rollbackKeys s.version (engScanPfx e (MvccKeyPfx.TxnWrite s.version).encode)
  pure (engDel (dels.foldl engDel e) (MvccKey.TxnActive s.version).encode)

/-- The `MvccTransaction::scan_prefix` of `mvcc.rs` (lines 224-232): it
scans the raw engine with the raw caller prefix and materializes the
results, performing no key decoding, no visibility filtering and no
tombstone handling. -/
def txnScanPfx (e : Eng) (pfx : Bytes) : List (Bytes × Bytes) :=
  engScanPfx e pfx

/-! ## Concrete transaction scenarios -/

deriving instance DecidableEq for Except

/-- Run `n` successive empty transactions (begin immediately followed by
commit); used to advance the `NextVersion` counter. -/
def beginCommitN : Nat → Eng → Except Error Eng
  | 0, e => .ok e
  | n + 1, e => do
    let (e1, s) ← txnBegin e
    beginCommitN n (txnCommit e1 s)

/-- Scenario of spec section 8 (Scenario B precondition): one transaction
commits `key1 ↦ val1, key2 ↦ val2, key3 ↦ val3` on a fresh engine. -/
def c2setup : Except Error Eng := do
  let (e0, t0) ← txnBegin []
  let e1 ← txnSetOp e0 t0 [107, 101, 121, 49] [118, 97, 108, 49]
  let e2 ← txnSetOp e1 t0 [107, 101, 121, 50] [118, 97, 108, 50]
  let e3 ← txnSetOp e2 t0 [107, 101, 121, 51] [118, 97, 108, 51]
  pure (txnCommit e3 t0)

/-- A fresh transaction then calls `scan_prefix("key")`. -/
def c2run : Except Error (List (Bytes × Bytes)) := do
  let e ← c2setup
  let (e5, _t1) ← txnBegin e
  pure (txnScanPfx e5 [107, 101, 121])

/-- State reached after: a dummy transaction (version 0), a committed write
of `k ↦ [1]` at version 1, 254 empty transactions (versions 2..255), a
committed write of `k ↦ [2]` at version 256, and a reader begun at
version 257. -/
def c3state : Except Error (Eng × TxnState) := do
  let (e, s0) ← txnBegin []
  let e := txnCommit e s0
  let (e, s1) ← txnBegin e
  let e ← txnSetOp e s1 [107] [1]
  let e := txnCommit e s1
  let e ← beginCommitN 254 e
  let (e, s2) ← txnBegin e
  let e ← txnSetOp e s2 [107] [2]
  let e := txnCommit e s2
  txnBegin e

/-- Engine component of `c3state`. -/
def c3eng : Eng :=
  match c3state with
  | .ok (e, _) => e
  | .error _ => []

/-- Reader transaction of `c3state` (version 257, no active snapshot). -/
def c3txn : TxnState :=
  match c3state with
  | .ok (_, s) => s
  | .error _ => TxnState.mk 0 []

/-- The reader's `get(k)`. -/
def c3run : Except Error (Option Bytes) := txnGet c3eng c3txn [107]

/-- Run for claim C4: `t1` begins at version 0; 255 empty transactions
advance the counter; `t2` begins at version 256 (with `t1` in its active
snapshot, so neither has seen the other's commit); `t2` writes key `k` and
commits; then `t1` writes the same key `k`. -/
def c4run : Except Error Eng := do
  let (e, s1) ← txnBegin []
  let e ← beginCommitN 255 e
  let (e, s2) ← txnBegin e
  let e ← txnSetOp e s2 [107] [2]
  let e := txnCommit e s2
  txnSetOp e s1 [107] [1]

/-- Final engine of `c4run`. -/
def c4eng : Eng :=
  match c4run with
  | .ok e => e
  | .error _ => []

/-- Engine contents right after the first `begin` on a fresh engine. -/
def c1beginEng : Eng :=
  match txnBegin [] with
  | .ok (e, _) => e
  | .error _ => []

set_option maxRecDepth 200000 in
/-- Claim C1: the byte string stored in the underlying engine for every
MVCC key variant would be the order-preserving codec encoding of spec
section 4.2 (for example `Version("abc", 11)` as
`03 61 62 63 00 00 00 00 00 00 00 00 00 0B`, `NextVersion` as `00`,
`TxnActive(1)` as `01 00 00 00 00 00 00 00 01`).  The codec of
`keycode.rs` does produce exactly those bytes, but `MvccKey::encode` in
`mvcc.rs` calls `bincode::serialize` instead, so the engine stores the
bincode bytes: the first transaction's `begin` stores the `NextVersion`
counter under `00 00 00 00`, not under `00`.  This theorem exhibits the
divergence. -/
theorem claim_C1 :
    keycodeEncode (MvccKey.Version [97, 98, 99] 11)
        = [3, 97, 98, 99, 0, 0, 0, 0, 0, 0, 0, 0, 0, 11]
    ∧ keycodeEncode MvccKey.NextVersion = [0]
    ∧ keycodeEncode (MvccKey.TxnActive 1) = [1, 0, 0, 0, 0, 0, 0, 0, 1]
    ∧ MvccKey.encode (MvccKey.Version [97, 98, 99] 11)
        = [3, 0, 0, 0, 3, 0, 0, 0, 0, 0, 0, 0, 97, 98, 99, 11, 0, 0, 0, 0, 0, 0, 0]
    ∧ MvccKey.encode MvccKey.NextVersion = [0, 0, 0, 0]
    ∧ MvccKey.encode (MvccKey.TxnActive 1) = [1, 0, 0, 0, 1, 0, 0, 0, 0, 0, 0, 0]
    ∧ MvccKey.encode (MvccKey.Version [97, 98, 99] 11)
        ≠ keycodeEncode (MvccKey.Version [97, 98, 99] 11)
    ∧ engGet c1beginEng (keycodeEncode MvccKey.NextVersion) = none
    ∧ engGet c1beginEng MvccKey.NextVersion.encode = some (u64LE 1) := by
  decide

set_option maxRecDepth 200000 in
/-- Claim C2: `Txn::scan_prefix(p)` would return the live
`(logical_key, value)` pairs with logical-key prefix `p` under the
transaction's visibility rules, hiding tombstones; in particular after a
prior transaction commits `key1..key3`, a fresh transaction's
`scan_prefix("key")` would yield the three pairs.  The implementation
(mvcc.rs lines 224-232) instead scans the raw engine with the raw prefix:
the engine keys are encoded `MvccKey`s, none of which starts with the
bytes of `"key"`, so the scan returns the empty list. -/
theorem claim_C2 : c2run = .ok [] := by decide

set_option maxRecDepth 200000 in
/-- Claim C3: `Txn::get(k)` would return the payload of the latest visible
version of `k`.  Because `MvccKey::encode` serializes the version
little-endian, byte order disagrees with numeric order from version 256
on: with visible versions 1 (payload `[1]`) and 256 (payload `[2]`), the
reverse scan meets version 1 first and `get` returns the stale `[1]`.
The conjuncts show that version 256 is stored and visible to the reader,
yet `get` answers with version 1's payload. -/
theorem claim_C3 :
    c3run = .ok (some [1])
    ∧ engGet c3eng (MvccKey.Version [107] 256).encode = some (encOptBytes (some [2]))
    ∧ engGet c3eng (MvccKey.Version [107] 1).encode = some (encOptBytes (some [1]))
    ∧ isVisible c3txn 256 = true
    ∧ isVisible c3txn 1 = true
    ∧ c3txn.version = 257 := by
  decide

set_option maxRecDepth 200000 in
/-- Claim C4: when two transactions both write the same key without seeing
each other's commit, exactly one write would succeed and the other raise
`WriteConflict`.  The little-endian version encoding also breaks the
conflict-detection range scan: `t1` (version 0) checks
`Version(k, 1) ..= Version(k, u64::MAX)`, and `t2`'s committed
`Version(k, 256)` lies below `Version(k, 1)` in byte order, so it is not
seen and both writes return `Ok` — the final engine holds both version
cells for the same key. -/
theorem claim_C4 :
    c4run.isOk = true
    ∧ engGet c4eng (MvccKey.Version [107] 0).encode = some (encOptBytes (some [1]))
    ∧ engGet c4eng (MvccKey.Version [107] 256).encode = some (encOptBytes (some [2])) := by
  decide

/-! ## Claim C6: the byte-string field codec -/

lemma lexLt_cons_cons (a b : Nat) (as bs : Bytes) :
    lexLt (a :: as) (b :: bs) = (if a < b then true else if a = b then lexLt as bs else false) := rfl

lemma escBytes_cons_zero (rest : Bytes) : escBytes (0 :: rest) = 0 :: 255 :: escBytes rest := by
  simp [escBytes]

lemma escBytes_cons_pos (b : Nat) (hb : b ≠ 0) (rest : Bytes) :
    escBytes (b :: rest) = b :: escBytes rest := by
  simp [escBytes, hb]

lemma lexLt_head_lt (a b : Nat) (h : a < b) (as bs : Bytes) :
    lexLt (a :: as) (b :: bs) = true := by
  simp [lexLt_cons_cons, h]

/-- Strict monotonicity of the escaped byte-string encoding. -/
lemma escLtMono : ∀ (x y : Bytes), lexLt x y = true → lexLt (escBytes x) (escBytes y) = true := by
  intro x
  induction x with
  | nil =>
    intro y h
    match y with
    | [] => simp [lexLt] at h
    | b :: bs =>
      by_cases hb : b = 0
      · subst hb
        rw [escBytes_cons_zero]
        show lexLt [0, 0] (0 :: 255 :: escBytes bs) = true
        rw [lexLt_cons_cons]
        simp
        show lexLt [0] (255 :: escBytes bs) = true
        exact lexLt_head_lt 0 255 (by omega) _ _
      · rw [escBytes_cons_pos b hb]
        exact lexLt_head_lt 0 b (Nat.pos_of_ne_zero hb) _ _
  | cons a as ih =>
    intro y h
    match y with
    | [] => simp [lexLt] at h
    | b :: bs =>
      rw [lexLt_cons_cons] at h
      by_cases hab : a < b
      · by_cases ha : a = 0
        · subst ha
          rw [escBytes_cons_zero]
          have hb : b ≠ 0 := by omega
          rw [escBytes_cons_pos b hb]
          exact lexLt_head_lt 0 b hab _ _
        · rw [escBytes_cons_pos a ha]
          have hb : b ≠ 0 := by omega
          rw [escBytes_cons_pos b hb]
          exact lexLt_head_lt a b hab _ _
      · simp [hab] at h
        obtain ⟨hae, hrec⟩ := h
        subst hae
        have htail := ih bs hrec
        by_cases ha : a = 0
        · subst ha
          rw [escBytes_cons_zero, escBytes_cons_zero]
          rw [lexLt_cons_cons]
          simp
          rw [lexLt_cons_cons]
          simpa using htail
        · rw [escBytes_cons_pos a ha, escBytes_cons_pos a ha, lexLt_cons_cons]
          simpa using htail

/-- The modelled decoder is a left inverse of `serialize_bytes`, consuming
exactly the encoding. -/
lemma descBytes_escBytes : ∀ x : Bytes, descBytes (escBytes x) = some (x, []) := by
  intro x
  induction x with
  | nil => rfl
  | cons b rest ih =>
    by_cases hb : b = 0
    · subst hb
      rw [escBytes_cons_zero]
      simp [descBytes, ih]
    · rw [escBytes_cons_pos b hb]
      rw [descBytes.eq_def]
      simp [hb, ih]

/-- Claim C6: for all byte strings `x` and `y`, if `x ≤ y` in
byte-lexicographic order then the byte-string field encoding of
`keycode.rs` (escape `0x00` as `0x00 0xFF`, terminate with `0x00 0x00`)
satisfies `encode(x) ≤ encode(y)` byte-lexicographically, decoding (per
the spec's rules; the decoder is absent from `src/`) is the exact inverse
of encoding, and the codec is injective, hence a bijection onto its
range. -/
theorem claim_C6 (x y : Bytes) :
    (lexLe x y = true → lexLe (escBytes x) (escBytes y) = true)
    ∧ descBytes (escBytes x) = some (x, [])
    ∧ (escBytes x = escBytes y → x = y) := by
  refine ⟨?_, descBytes_escBytes x, ?_⟩
  · intro h
    simp only [lexLe, Bool.or_eq_true, decide_eq_true_eq] at h ⊢
    rcases h with h1 | h2
    · exact Or.inl (escLtMono x y h1)
    · subst h2
      exact Or.inr rfl
  · intro h
    have h1 := descBytes_escBytes x
    rw [h, descBytes_escBytes y] at h1
    simp at h1
    exact h1.symm

/-- Witness for claim C6: the monotonicity hypothesis discharged at
`x = [0]`, `y = [0, 0]` and the injectivity hypothesis at `x = y = [0]`. -/
theorem claim_C6_witness :
    lexLe (escBytes [0]) (escBytes [0, 0]) = true
    ∧ descBytes (escBytes [0]) = some ([0], [])
    ∧ ([0] : Bytes) = [0] :=
  ⟨(claim_C6 [0] [0, 0]).1 (by decide), (claim_C6 [0] [0, 0]).2.1,
   (claim_C6 [0] [0]).2.2 rfl⟩

/-! ## Claim C8: Bitcask log recovery (`bitcast_disk.rs`) -/

/-- Exact read of `n` bytes at absolute offset `off` of the log file
(`read_exact` after a seek; fails — `UnexpectedEof` — when fewer bytes
remain). -/
def readExactAt (file : Bytes) (off n : Nat) : Option Bytes :=
  if off + n ≤ file.length then some ((file.drop off).take n) else none

/-- The `Log::read_entry` of `bitcast_disk.rs`: read the two 4-byte
little-endian length fields, the key, and (unless the value length is the
`u32::MAX` tombstone sentinel) the value; any short read is an error
(`none`). -/
def readEntry (file : Bytes) (off : Nat) : Option (Bytes × Option Nat) :=
  match readExactAt file off 4 with
  | none => none
  | some kszb =>
    match readExactAt file (off + 4) 4 with
    | none => none
    | some vszb =>
      match readExactAt file (off + 8) (leNat kszb) with
      | none => none
      | some key =>
        if leNat vszb = u32MAX then some (key, none)
        else
          match readExactAt file (off + 8 + leNat kszb) (leNat vszb) with
          | none => none
          | some _ => some (key, some (leNat vszb))

/-- The in-memory Bitcask index `KeyDir`: key to (value offset, value
length), sorted by key. -/
abbrev KeyDir := List (Bytes × (Nat × Nat))

/-- `KeyDir` insert (BTreeMap insert). -/
def kdSet : KeyDir → Bytes → Nat × Nat → KeyDir
  | [], k, v => [(k, v)]
  | (k', v') :: rest, k, v =>
    if lexLt k k' = true then (k, v) :: (k', v') :: rest
    else if k = k' then (k, v) :: rest
    else (k', v') :: kdSet rest k v

/-- `KeyDir` remove (BTreeMap remove). -/
def kdDel : KeyDir → Bytes → KeyDir
  | [], _ => []
  | (k', v') :: rest, k => if k' = k then kdDel rest k else (k', v') :: kdDel rest k

/-- Loop of `Log::build_key_dir`: replay records from the current offset
while it is below the file size; a record read failure propagates as an
`InternalError`.  The loop advances the offset by at least the 8-byte
header each iteration, so `file.length + 1` units of fuel always suffice
and the fuel branch is unreachable. -/
def buildKeyDirGo (file : Bytes) : Nat → Nat → KeyDir → Except Error KeyDir
  | 0, _, _ => .error (.InternalError "fuel")
  | fuel + 1, off, kd =>
    if off < file.length then
      match readEntry file off with
      | none => .error (.InternalError "failed to fill whole buffer")
      | some (key, vlen) =>
        let voff := off + 8 + key.length
        match vlen with
        | some vl => buildKeyDirGo file fuel (voff + vl) (kdSet kd key (voff, vl))
        | none => buildKeyDirGo file fuel voff (kdDel kd key)
    else .ok kd

/-- The `Log::build_key_dir` of `bitcast_disk.rs`, replaying from offset 0
with an empty index. -/
def buildKeyDir (file : Bytes) : Except Error KeyDir :=
  buildKeyDirGo file (file.length + 1) 0 []

/-- The record bytes appended by `Log::write_entry`: 4-byte little-endian
key length, 4-byte little-endian value length (`u32::MAX` for a tombstone),
key bytes, value bytes. -/
def logRecord (key : Bytes) (value : Option Bytes) : Bytes :=
  u32LE key.length
    ++ u32LE (match value with | some v => v.length | none => u32MAX)
    ++ key
    ++ (match value with | some v => v | none => [])

/-- Counterexample to claim C8: a log file consisting of one complete
record (`[97] ↦ [98, 99]`) followed by the first 5 bytes of a second
record is claimed to be recovered up to the last complete record; instead
`build_key_dir` propagates the short read as an error, so opening the
engine fails. -/
theorem claim_C8_counterexample :
    buildKeyDir (logRecord [97] (some [98, 99]) ++ (logRecord [100] (some [101])).take 5)
      = .error (.InternalError "failed to fill whole buffer") := by
  decide

/-- Claim C8 as amended: recovery replays records from offset 0, but a
torn tail is NOT truncated: for every strict nonempty prefix of a trailing
record, the short read propagates as an error and opening fails, while a
log of complete records only recovers into the expected index. -/
theorem claim_C8 :
    (∀ m : Nat, m < (logRecord [100] (some [101])).length - 1 →
      buildKeyDir (logRecord [97] (some [98, 99]) ++ (logRecord [100] (some [101])).take (m + 1))
        = .error (.InternalError "failed to fill whole buffer"))
    ∧ buildKeyDir (logRecord [97] (some [98, 99]) ++ logRecord [100] (some [101]))
        = .ok [([97], (9, 2)), ([100], (20, 1))] := by
  exact ⟨by decide, by decide⟩

/-- Witness for claim C8: the torn-tail hypothesis discharged at a 7-byte
tail. -/
theorem claim_C8_witness :
    buildKeyDir (logRecord [97] (some [98, 99]) ++ (logRecord [100] (some [101])).take 7)
      = .error (.InternalError "failed to fill whole buffer") :=
  claim_C8.1 6 (by decide)

/-! ## Claims C7 and C9: the transactional table layer (`kv.rs`) -/

/-- The `DataType` of `types.rs`. -/
inductive DataType where
  | Boolean
  | Float
  | Integer
  | String
deriving DecidableEq, Repr

/-- The `Value` of `types.rs`.  The `f64` payload of `Float` is represented
by its bit pattern as a `Nat`; no claim handled here touches
floating-point arithmetic or comparison. -/
inductive Value where
  | Null
  | Boolean (b : Bool)
  | Integer (i : Int)
  | Float (bits : Nat)
  | String (s : String)
deriving DecidableEq, Repr

/-- The `Value::datatype` of `types.rs` (`Null` has no datatype). -/
def Value.datatype : Value → Option DataType
  | .Null => none
  | .Boolean _ => some .Boolean
  | .Integer _ => some .Integer
  | .Float _ => some .Float
  | .String _ => some .String

/-- The `Column` of `schema.rs`. -/
structure Column where
  name : String
  datatype : DataType
  nullable : Bool
  default : Option Value
  primaryKey : Bool
deriving DecidableEq, Repr

/-- The `Table` of `schema.rs`. -/
structure Table where
  name : String
  columns : List Column
deriving DecidableEq, Repr

/-- The `Table::get_primary_key` of `schema.rs`: position of the first
primary-key column, then `row[col]`.  `none` models the two panics
(`expect` when no column is marked primary, index out of bounds when the
row is shorter than the primary-key position). -/
def getPrimaryKey (t : Table) (row : List Value) : Option Value := do
  let idx ← t.columns.findIdx? (fun c => c.primaryKey)
  row.get? idx

/-- Code points of a table-name string (ASCII in every claim input, where
this coincides with the UTF-8 bytes the code would produce). -/
def strBytes (st : String) : Bytes := st.toList.map Char.toNat

/-- Modelled from the spec: `serialize_key`, imported by `kv.rs` from
`storage::keycode`, is not defined under `src/` (`keycode.rs` only
defines `serialize`, which rejects strings).  Following the codec rules of
spec section 4.2 — one-byte variant tag, self-delimiting fields — a
`Value` is encoded as a tag byte and an order-preserving payload.  Only
injectivity on the concrete keys matters to the claims settled with it. -/
def valueEnc : Value → Bytes
  | .Null => [0]
  | .Boolean b => [1, if b then 1 else 0]
  | .Integer i => 2 :: u64BE (i + 2 ^ 63).toNat
  | .Float bits => 3 :: u64BE bits
  | .String s => 4 :: escBytes (strBytes s)

/-- Modelled from the spec: the encoded `Key::Row(table_name, pk)` of
`kv.rs` (variant tag 1, the table name as an escaped byte string, then the
primary-key value). -/
def rowKeyEnc (tname : String) (pk : Value) : Bytes :=
  1 :: (escBytes (strBytes tname) ++ valueEnc pk)

/-- The stored row payload (`bincode::serialize(&row)` in `kv.rs`); the
payload is opaque to the claims settled here, so a direct length-prefixed
concatenation of the value encodings stands in for the bincode bytes. -/
def rowEnc (row : List Value) : Bytes :=
  u64LE row.length ++ row.foldr (fun v acc => valueEnc v ++ acc) []

/-- The per-column validation loop of `create_row` (`kv.rs` lines 82-100):
`for (i, col) in table.columns.iter().enumerate() { match row[i].datatype() ... }`.
Result `none` models the panic of `row[i]` when `i` is out of bounds;
`some (some err)` a validation error; `some none` success.  There is no
row-length check before the loop. -/
def validateRowGo (row : List Value) : Nat → List Column → Option (Option Error)
  | _, [] => some none
  | i, col :: rest =>
    match row.get? i with
    | none => none
    | some v =>
      match v.datatype with
      | none =>
        if col.nullable then validateRowGo row (i + 1) rest
        else some (some (.InternalError "expects type, got NULL"))
      | some dt =>
        if dt = col.datatype then validateRowGo row (i + 1) rest
        else some (some (.InternalError "type mismatch"))

/-- The `create_row` of `kv.rs`, with the `must_get_table` lookup passed
through (the table argument arrives resolved).  The outer `Option` models
a Rust panic (out-of-bounds `row[i]` in the validation loop or in
`get_primary_key`); `some` carries the `Result`: validate each column,
extract the primary key, fail when a visible row with that key exists,
else write `Row(table, pk) ↦ row`. -/
def createRow (e : Eng) (s : TxnState) (t : Table) (row : List Value) :
    Option (Except Error Eng) :=
  match validateRowGo row 0 t.columns with
  | none => none
  | some (some err) => some (.error err)
  | some none =>
    match getPrimaryKey t row with
    | none => none
    | some pk =>
      some (do
        let existing ← txnGet e s (rowKeyEnc t.name pk)
        if existing.isSome then
          throw (Error.InternalError "Duplicated data for primary key")
        else
          txnSetOp e s (rowKeyEnc t.name pk) (rowEnc row))

/-- The `update_row` of `kv.rs`: compute the new primary key; when it
differs from the old one, delete `Row(table, old_pk)`; then
unconditionally write `Row(table, new_pk) ↦ row`.  There is no
duplicate-key check.  `none` models the `get_primary_key` panics. -/
def updateRow (e : Eng) (s : TxnState) (t : Table) (oldPk : Value) (row : List Value) :
    Option (Except Error Eng) :=
  match getPrimaryKey t row with
  | none => none
  | some newPk =>
    some ((if oldPk ≠ newPk then txnDelOp e s (rowKeyEnc t.name oldPk) else pure e).bind
      (fun e1 => txnSetOp e1 s (rowKeyEnc t.name newPk) (rowEnc row)))

/-- Truth of "the call returned `Ok`" for a possibly-panicking table
operation. -/
def isOkSome : Option (Except Error Eng) → Bool
  | some (.ok _) => true
  | _ => false

/-- Truth of "the call panicked or returned `Err`". -/
def isPanicOrErr : Option (Except Error Eng) → Bool
  | none => true
  | some (.error _) => true
  | some (.ok _) => false

/-- Single-column table (`id INTEGER PRIMARY KEY NOT NULL`) for claim C7. -/
def c7table : Table := Table.mk "t" [Column.mk "id" DataType.Integer false none true]

/-- Transaction begun on a fresh engine for the table-layer scenarios. -/
def tblBegin : Except Error (Eng × TxnState) := txnBegin []

/-- Engine right after `tblBegin`. -/
def tblE0 : Eng :=
  match tblBegin with
  | .ok (e, _) => e
  | .error _ => []

/-- Transaction state of `tblBegin` (version 0, empty active set). -/
def tblS : TxnState :=
  match tblBegin with
  | .ok (_, s) => s
  | .error _ => TxnState.mk 0 []

/-- Engine after `create_row([Integer 1])` on `c7table`. -/
def c7e1 : Eng :=
  match createRow tblE0 tblS c7table [Value.Integer 1] with
  | some (.ok e) => e
  | _ => []

/-- Engine after a second `create_row([Integer 2])`. -/
def c7e2 : Eng :=
  match createRow c7e1 tblS c7table [Value.Integer 2] with
  | some (.ok e) => e
  | _ => []

/-- The update under test: `update_row(c7table, old_pk = Integer 1,
new_row = [Integer 2])`, while a visible row with primary key `Integer 2`
already exists. -/
def c7upd : Option (Except Error Eng) :=
  updateRow c7e2 tblS c7table (Value.Integer 1) [Value.Integer 2]

/-- Engine produced by `c7upd`. -/
def c7updE : Eng :=
  match c7upd with
  | some (.ok e) => e
  | _ => []

set_option maxRecDepth 400000 in
/-- Counterexample to claim C7: with rows `pk=1` and `pk=2` both created
and visible, `update_row(t, 1, [Integer 2])` is claimed to fail the
duplicate-primary-key check; instead it returns `Ok`, silently
overwriting row 2. -/
theorem claim_C7_counterexample :
    txnGet c7e2 tblS (rowKeyEnc "t" (Value.Integer 2)) = .ok (some (rowEnc [Value.Integer 2]))
    ∧ c7upd = some (.ok c7updE) := by
  exact ⟨by decide, by decide⟩

set_option maxRecDepth 400000 in
/-- Claim C7 as amended: `update_row(table, old_pk, new_row)` computes
`new_pk` from `new_row`; when `new_pk ≠ old_pk` it deletes
`Row(table, old_pk)` and then unconditionally writes
`Row(table, new_pk) ↦ new_row` with NO duplicate-primary-key check,
overwriting any existing visible row under `new_pk`; when the keys are
equal it overwrites in place.  Concretely: the colliding update above
returns `Ok`, afterwards `old_pk` reads as deleted and `new_pk` reads as
the new row; and in general the `new_pk ≠ old_pk` path is exactly
delete-then-set. -/
theorem claim_C7 :
    c7upd = some (.ok c7updE)
    ∧ txnGet c7updE tblS (rowKeyEnc "t" (Value.Integer 1)) = .ok none
    ∧ txnGet c7updE tblS (rowKeyEnc "t" (Value.Integer 2)) = .ok (some (rowEnc [Value.Integer 2]))
    ∧ (∀ (e : Eng) (s : TxnState) (t : Table) (oldPk : Value) (row : List Value)
        (newPk : Value), getPrimaryKey t row = some newPk → oldPk ≠ newPk →
        updateRow e s t oldPk row
          = some ((txnDelOp e s (rowKeyEnc t.name oldPk)).bind
              (fun e1 => txnSetOp e1 s (rowKeyEnc t.name newPk) (rowEnc row)))) := by
  refine ⟨by decide, by decide, by decide, ?_⟩
  intro e s t oldPk row newPk hpk hne
  unfold updateRow
  rw [hpk]
  show some ((if oldPk ≠ newPk then txnDelOp e s (rowKeyEnc t.name oldPk) else pure e).bind
      (fun e1 => txnSetOp e1 s (rowKeyEnc t.name newPk) (rowEnc row))) = _
  rw [if_pos hne]

/-- Witness for claim C7: the general delete-then-set characterization
discharged at a concrete input. -/
theorem claim_C7_witness :
    updateRow [] (TxnState.mk 0 []) c7table (Value.Integer 1) [Value.Integer 2]
      = some ((txnDelOp [] (TxnState.mk 0 []) (rowKeyEnc "t" (Value.Integer 1))).bind
          (fun e1 => txnSetOp e1 (TxnState.mk 0 [])
            (rowKeyEnc "t" (Value.Integer 2)) (rowEnc [Value.Integer 2]))) :=
  claim_C7.2.2.2 [] (TxnState.mk 0 []) c7table (Value.Integer 1) [Value.Integer 2]
    (Value.Integer 2) (by decide) (by decide)

/-- Two-column table (`id INTEGER PRIMARY KEY NOT NULL, name STRING NULL`)
for claim C9. -/
def c9table : Table :=
  Table.mk "p" [Column.mk "id" DataType.Integer false none true,
                Column.mk "name" DataType.String true (some Value.Null) false]

/-- A validation loop that runs out of row before columns, with every
provided value passing its column check, cannot succeed: it either errors
on a provided value or reaches `row[i]` out of bounds (a panic). -/
lemma validateRowGo_short :
    ∀ (cols : List Column) (row : List Value) (i : Nat),
      i ≤ row.length → row.length < i + cols.length →
      validateRowGo row i cols ≠ some none := by
  intro cols
  induction cols with
  | nil =>
    intro row i hle hlt
    simp only [List.length_nil, Nat.add_zero] at hlt
    omega
  | cons col rest ih =>
    intro row i hle hlt
    have hlt2 : row.length < (i + 1) + rest.length := by
      simp only [List.length_cons] at hlt
      omega
    rw [validateRowGo]
    split
    · simp
    · rename_i v hget
      have hi : i < row.length := by
        by_contra hcon
        rw [List.get?_eq_none.mpr (by omega)] at hget
        cases hget
      split
      · split
        · exact ih row (i + 1) (by omega) hlt2
        · simp
      · split
        · exact ih row (i + 1) (by omega) hlt2
        · simp

set_option maxRecDepth 400000 in
/-- Claim C9 as amended: `create_row` performs NO row-length check.  For
every row shorter than the column count the call never succeeds: the
validation loop either rejects a provided value or reads `row[i]` out of
bounds — a panic (`none`), not an error return.  A row longer than the
column count passes validation, its extra values accepted: on `c9table`
(2 columns) the 1-value row panics and the 3-value row returns `Ok`. -/
theorem claim_C9 :
    (∀ (e : Eng) (s : TxnState) (t : Table) (row : List Value),
        row.length < t.columns.length → isPanicOrErr (createRow e s t row) = true)
    ∧ createRow tblE0 tblS c9table [Value.Integer 1] = none
    ∧ isOkSome (createRow tblE0 tblS c9table
        [Value.Integer 1, Value.String "a", Value.Integer 9]) = true := by
  refine ⟨?_, by decide, by decide⟩
  intro e s t row hlen
  rw [createRow]
  match hval : validateRowGo row 0 t.columns with
  | none => simp [isPanicOrErr]
  | some (some err) => simp [isPanicOrErr]
  | some none =>
    exact absurd hval (validateRowGo_short t.columns row 0 (by omega) (by omega))

set_option maxRecDepth 400000 in
/-- Counterexample to claim C9: `create_row` on the 2-column `c9table`
with the 1-value row `[Integer 1]` is claimed to return an error; instead
the validation loop evaluates `row[1]`, which is out of bounds — a panic,
modelled as `none`. -/
theorem claim_C9_counterexample :
    createRow tblE0 tblS c9table [Value.Integer 1] = none := by decide

/-- Witness for claim C9: the short-row hypothesis discharged on the empty
row against `c9table`. -/
theorem claim_C9_witness :
    isPanicOrErr (createRow [] (TxnState.mk 0 []) c9table []) = true :=
  claim_C9.1 [] (TxnState.mk 0 []) c9table [] (by decide)

/-! ## Claims C10 and C5: commit and rollback -/

lemma engDel_eq_filter (e : Eng) (k : Bytes) :
    engDel e k = e.filter (fun kv => decide (kv.1 ≠ k)) := by
  induction e with
  | nil => rfl
  | cons hd tl ih =>
    obtain ⟨k', v'⟩ := hd
    rw [engDel, List.filter_cons]
    by_cases hk : k' = k
    · simp [hk, ih]
    · simp [hk, ih]

lemma mem_engDel {x : Bytes × Bytes} {e : Eng} {k : Bytes} :
    x ∈ engDel e k ↔ x ∈ e ∧ x.1 ≠ k := by
  simp [engDel_eq_filter, List.mem_filter]

lemma mem_foldl_engDel :
    ∀ (dels : List Bytes) (e : Eng) (x : Bytes × Bytes),
      x ∈ dels.foldl engDel e ↔ x ∈ e ∧ x.1 ∉ dels := by
  intro dels
  induction dels with
  | nil => simp
  | cons d ds ih =>
    intro e x
    rw [List.foldl_cons, ih, mem_engDel]
    simp [List.mem_cons]
    tauto

lemma engDel_of_forall_ne {e : Eng} {k : Bytes} (h : ∀ x ∈ e, x.1 ≠ k) :
    engDel e k = e := by
  rw [engDel_eq_filter]
  exact List.filter_eq_self.mpr (fun a ha => by simpa using h a ha)

lemma engScanPfx_eq_nil {e : Eng} {p : Bytes}
    (h : ∀ x ∈ e, pfxRangePred p x.1 = false) : engScanPfx e p = [] := by
  rw [engScanPfx]
  exact List.filter_eq_nil_iff.mpr (fun a ha => by simp [h a ha])

/-- After a commit, no entry of the engine lies in the transaction's
`TxnWrite` scan range and the `TxnActive` marker is gone. -/
lemma txnCommit_clean (e : Eng) (s : TxnState) :
    ∀ x ∈ txnCommit e s,
      pfxRangePred (MvccKeyPfx.TxnWrite s.version).encode x.1 = false
      ∧ x.1 ≠ (MvccKey.TxnActive s.version).encode := by
  intro x hx
  rw [txnCommit, mem_engDel, mem_foldl_engDel] at hx
  obtain ⟨⟨hxe, hnd⟩, hta⟩ := hx
  refine ⟨?_, hta⟩
  by_contra hpred
  rw [Bool.not_eq_false] at hpred
  exact hnd (List.mem_map_of_mem Prod.fst (List.mem_filter.mpr ⟨hxe, hpred⟩))

/-- Claim C10: terminating a transaction is idempotent and commit is
irrevocable.  After `commit()` (which with the in-memory engine always
returns `Ok`), a further `commit()` returns `Ok` and leaves the engine
unchanged, and a `rollback()` also returns `Ok` and leaves the engine
unchanged — its `TxnWrite` scan finds nothing, so no committed `Version`
record is removed.  Stated for every engine state and transaction
state. -/
theorem claim_C10 (e : Eng) (s : TxnState) :
    txnCommit (txnCommit e s) s = txnCommit e s
    ∧ txnRollback (txnCommit e s) s = .ok (txnCommit e s) := by
  have hclean := txnCommit_clean e s
  have hscan : engScanPfx (txnCommit e s) (MvccKeyPfx.TxnWrite s.version).encode = [] :=
    engScanPfx_eq_nil (fun x hx => (hclean x hx).1)
  have hta : engDel (txnCommit e s) (MvccKey.TxnActive s.version).encode = txnCommit e s :=
    engDel_of_forall_ne (fun x hx => (hclean x hx).2)
  constructor
  · rw [txnCommit, hscan]
    simpa using hta
  · rw [txnRollback, hscan]
    simp [rollbackKeys, hta]

/-! ## Claim C5: rollback and commit over a write script -/


lemma ne_symm' {α : Sort _} {a b : α} (h : ¬a = b) : ¬b = a := fun hx => h hx.symm

lemma engGet_engSet (e : Eng) (k v q : Bytes) :
    engGet (engSet e k v) q = if q = k then some v else engGet e q := by
  induction e with
  | nil =>
    by_cases hq : q = k
    · subst hq; simp [engSet, engGet]
    · simp [engSet, engGet, ne_symm' hq, hq]
  | cons hd tl ih =>
    obtain ⟨k', v'⟩ := hd
    rw [engSet]
    by_cases hlt : lexLt k k' = true
    · rw [if_pos hlt]
      by_cases hq : q = k
      · subst hq; simp [engGet]
      · simp [engGet, ne_symm' hq, hq]
    · rw [if_neg hlt]
      by_cases hkk : k = k'
      · rw [if_pos hkk]
        subst hkk
        by_cases hq : q = k
        · subst hq; simp [engGet]
        · simp [engGet, ne_symm' hq, hq]
      · rw [if_neg hkk]
        by_cases hq : k' = q
        · subst hq
          simp [engGet, ne_symm' hkk]
        · simp [engGet, hq, ih]

lemma engGet_engDel (e : Eng) (k q : Bytes) :
    engGet (engDel e k) q = if q = k then none else engGet e q := by
  induction e with
  | nil => simp [engDel, engGet]
  | cons hd tl ih =>
    obtain ⟨k', v'⟩ := hd
    rw [engDel]
    by_cases hk : k' = k
    · subst hk
      rw [if_pos rfl, ih]
      by_cases hq : q = k'
      · simp [hq]
      · simp [engGet, hq, ne_symm' hq]
    · rw [if_neg hk]
      by_cases hq : k' = q
      · subst hq
        simp [engGet, hk]
      · simp [engGet, hq, ih]

lemma engGet_foldl_engDel :
    ∀ (dels : List Bytes) (e : Eng) (q : Bytes),
      engGet (dels.foldl engDel e) q = if q ∈ dels then none else engGet e q := by
  intro dels
  induction dels with
  | nil => simp
  | cons d ds ih =>
    intro e q
    rw [List.foldl_cons, ih, engGet_engDel]
    by_cases hq : q ∈ ds
    · simp [hq]
    · by_cases hd : q = d
      · simp [hd]
      · simp [hd, hq]

lemma mem_engSet_elim {x : Bytes × Bytes} :
    ∀ {e : Eng} {k v : Bytes}, x ∈ engSet e k v → x = (k, v) ∨ x ∈ e := by
  intro e
  induction e with
  | nil => intro k v h; rw [engSet] at h; simp at h; exact Or.inl h
  | cons hd tl ih =>
    intro k v h
    obtain ⟨k', v'⟩ := hd
    rw [engSet] at h
    split_ifs at h with hlt hkk
    · rcases List.mem_cons.mp h with h1 | h1
      · exact Or.inl h1
      · exact Or.inr h1
    · rcases List.mem_cons.mp h with h1 | h1
      · exact Or.inl h1
      · exact Or.inr (List.mem_cons_of_mem _ h1)
    · rcases List.mem_cons.mp h with h1 | h1
      · exact Or.inr (h1 ▸ List.mem_cons_self _ _)
      · rcases ih h1 with h2 | h2
        · exact Or.inl h2
        · exact Or.inr (List.mem_cons_of_mem _ h2)

lemma mem_engSet_self : ∀ (e : Eng) (k v : Bytes), (k, v) ∈ engSet e k v := by
  intro e
  induction e with
  | nil => intro k v; rw [engSet]; exact List.mem_singleton.mpr rfl
  | cons hd tl ih =>
    intro k v
    obtain ⟨k', v'⟩ := hd
    rw [engSet]
    split_ifs with hlt hkk
    · exact List.mem_cons_self _ _
    · exact List.mem_cons_self _ _
    · exact List.mem_cons_of_mem _ (ih k v)

lemma mem_engSet_of_ne {x : Bytes × Bytes} :
    ∀ {e : Eng} {k v : Bytes}, x ∈ e → x.1 ≠ k → x ∈ engSet e k v := by
  intro e
  induction e with
  | nil => intro k v h _; simp at h
  | cons hd tl ih =>
    intro k v h hne
    obtain ⟨k', v'⟩ := hd
    rw [engSet]
    split_ifs with hlt hkk
    · exact List.mem_cons_of_mem _ h
    · subst hkk
      rcases List.mem_cons.mp h with h1 | h1
      · exact absurd (congrArg Prod.fst h1) hne
      · exact List.mem_cons_of_mem _ h1
    · rcases List.mem_cons.mp h with h1 | h1
      · exact h1 ▸ List.mem_cons_self _ _
      · exact List.mem_cons_of_mem _ (ih h1 hne)

lemma lexLt_head_ge (a b : Nat) (h : b < a) (as bs : Bytes) :
    lexLt (a :: as) (b :: bs) = false := by
  rw [lexLt_cons_cons, if_neg (by omega), if_neg (by omega)]

lemma lexLe_append_self : ∀ (x s : Bytes), lexLe x (x ++ s) = true := by
  intro x
  induction x with
  | nil =>
    intro s
    match s with
    | [] => rfl
    | c :: cs => rfl
  | cons a y ih =>
    intro s
    have h := ih s
    simp only [lexLe, Bool.or_eq_true, decide_eq_true_eq] at h ⊢
    rcases h with h1 | h1
    · refine Or.inl ?_
      rw [List.cons_append, lexLt_cons_cons]
      simp [h1]
    · refine Or.inr ?_
      have hs : s.length = 0 := by
        have hl := congrArg List.length h1
        rw [List.length_append] at hl
        omega
      have hs2 : s = [] := List.eq_nil_of_length_eq_zero hs
      subst hs2
      simp

lemma lexLt_append_lt : ∀ (q : Bytes) {a b : Nat} (s t : Bytes), a < b →
    lexLt (q ++ a :: s) (q ++ b :: t) = true := by
  intro q
  induction q with
  | nil =>
    intro a b s t h
    simp only [List.nil_append]
    exact lexLt_head_lt a b h s t
  | cons c q2 ih =>
    intro a b s t h
    simp only [List.cons_append]
    rw [lexLt_cons_cons]
    simp [ih s t h]

/-- First 11 bytes of the encoded `TxnWrite(v)` scan prefix for
`v < 2 ^ 56` (everything except the final zero byte). -/
def twBase (v : Nat) : Bytes :=
  [2, 0, 0, 0, v % 256, v / 256 % 256, v / 256 ^ 2 % 256, v / 256 ^ 3 % 256,
   v / 256 ^ 4 % 256, v / 256 ^ 5 % 256, v / 256 ^ 6 % 256]

lemma TWp_eq (v : Nat) (hv : v < 2 ^ 56) :
    (MvccKeyPfx.TxnWrite v).encode = twBase v ++ [0] := by
  have hv2 : v < 72057594037927936 := by simpa using hv
  have h7 : v / 72057594037927936 = 0 := Nat.div_eq_of_lt hv2
  simp [MvccKeyPfx.encode, u32LE, u64LE, twBase, h7]

lemma pred_TW_bound (v : Nat) (hv : v < 2 ^ 56) (k : Bytes) :
    pfxRangePred (MvccKeyPfx.TxnWrite v).encode k
      = (lexLe (twBase v ++ [0]) k && lexLt k (twBase v ++ [1])) := by
  rw [pfxRangePred, TWp_eq v hv]
  have h1 : (twBase v ++ [0]).reverse = 0 :: (twBase v).reverse := by simp
  rw [h1, incrRev]
  norm_num

lemma TWkey_decomp (v : Nat) (k : Bytes) :
    (MvccKey.TxnWrite v k).encode
      = (MvccKeyPfx.TxnWrite v).encode ++ (u64LE k.length ++ k) := by
  simp [MvccKey.encode, MvccKeyPfx.encode]

lemma pred_TW_key (v : Nat) (hv : v < 2 ^ 56) (k : Bytes) :
    pfxRangePred (MvccKeyPfx.TxnWrite v).encode (MvccKey.TxnWrite v k).encode = true := by
  rw [pred_TW_bound v hv, TWkey_decomp, TWp_eq v hv]
  rw [lexLe_append_self, List.append_assoc]
  have h2 : lexLt (twBase v ++ (0 :: (u64LE k.length ++ k))) (twBase v ++ 1 :: []) = true :=
    lexLt_append_lt (twBase v) _ _ (by omega)
  simpa using h2

lemma Version_encode_cons (key : Bytes) (v2 : Nat) :
    (MvccKey.Version key v2).encode
      = 3 :: ([0, 0, 0] ++ (u64LE key.length ++ (key ++ u64LE v2))) := by
  simp [MvccKey.encode, u32LE]

lemma pred_Version_false (v : Nat) (hv : v < 2 ^ 56) (key : Bytes) (v2 : Nat) :
    pfxRangePred (MvccKeyPfx.TxnWrite v).encode (MvccKey.Version key v2).encode = false := by
  rw [pred_TW_bound v hv, Version_encode_cons]
  have hb : twBase v ++ [1]
      = 2 :: ([0, 0, 0, v % 256, v / 256 % 256, v / 256 ^ 2 % 256, v / 256 ^ 3 % 256,
          v / 256 ^ 4 % 256, v / 256 ^ 5 % 256, v / 256 ^ 6 % 256] ++ [1]) := by
    simp [twBase]
  rw [hb, lexLt_head_ge 3 2 (by omega)]
  simp

lemma TWkey_ne_VersionKey (v : Nat) (k key : Bytes) (v2 : Nat) :
    (MvccKey.TxnWrite v k).encode ≠ (MvccKey.Version key v2).encode := by
  simp [MvccKey.encode, u32LE]

lemma VersionKey_ne_TxnActive (key : Bytes) (v2 v : Nat) :
    (MvccKey.Version key v2).encode ≠ (MvccKey.TxnActive v).encode := by
  simp [MvccKey.encode, u32LE]

lemma TWkey_ne_TxnActive (v2 : Nat) (k : Bytes) (v : Nat) :
    (MvccKey.TxnWrite v2 k).encode ≠ (MvccKey.TxnActive v).encode := by
  simp [MvccKey.encode, u32LE]

lemma leNat_u64LE (v : Nat) (hv : v < 2 ^ 64) : leNat (u64LE v) = v := by
  simp [u64LE, leNat]
  omega

lemma decU64LE_u64LE (v : Nat) (hv : v < 2 ^ 64) (rest : Bytes) :
    decU64LE (u64LE v ++ rest) = some (v, rest) := by
  show some (leNat (u64LE v), rest) = some (v, rest)
  rw [leNat_u64LE v hv]

lemma mvccDecode_TW (v : Nat) (k : Bytes) (hv : v < 2 ^ 64) (hk : k.length < 2 ^ 64) :
    mvccDecode (MvccKey.TxnWrite v k).encode = some (.TxnWrite v k) := by
  have h1 : (MvccKey.TxnWrite v k).encode
      = 2 :: 0 :: 0 :: 0 :: (u64LE v ++ (u64LE k.length ++ k)) := by
    simp [MvccKey.encode, u32LE]
  rw [h1, mvccDecode]
  norm_num [leNat]
  simp [decU64LE_u64LE v hv, decU64LE_u64LE k.length hk, takeExact]

/-- Intra-transaction write script: apply `write_inner` for each
(key, payload) pair in order, propagating the first error (`set` passes
`some value`, `delete` passes `none`). -/
def runWrites (s : TxnState) : Eng → List (Bytes × Option Bytes) → Except Error Eng
  | e, [] => .ok e
  | e, (k, val) :: rest =>
    match writeInner e s k val with
    | .error err => .error err
    | .ok e1 => runWrites s e1 rest

lemma writeInner_ok_eq {e : Eng} {s : TxnState} {k : Bytes} {val : Option Bytes} {e2 : Eng}
    (h : writeInner e s k val = .ok e2) :
    e2 = engSet (engSet e (MvccKey.TxnWrite s.version k).encode [])
      ((MvccKey.Version k s.version).encode) (encOptBytes val) := by
  unfold writeInner at h
  cases hc : writeConflictCheck e s k with
  | error err => rw [hc] at h; exact absurd h (by simp [Except.bind])
  | ok u =>
    rw [hc] at h
    simp [Except.bind] at h
    exact h.symm

lemma runWrites_pres_TW (s : TxnState) (k0 : Bytes) :
    ∀ (ops : List (Bytes × Option Bytes)) (e e1 : Eng),
      runWrites s e ops = .ok e1 →
      ((MvccKey.TxnWrite s.version k0).encode, ([] : Bytes)) ∈ e →
      ((MvccKey.TxnWrite s.version k0).encode, ([] : Bytes)) ∈ e1 := by
  intro ops
  induction ops with
  | nil =>
    intro e e1 h hm
    rw [runWrites] at h
    injection h with h
    exact h ▸ hm
  | cons op rest ih =>
    intro e e1 h hm
    obtain ⟨k, val⟩ := op
    rw [runWrites] at h
    cases hw : writeInner e s k val with
    | error err => rw [hw] at h; cases h
    | ok e2 =>
      rw [hw] at h
      refine ih e2 e1 h ?_
      have he2 : e2 = engSet (engSet e (MvccKey.TxnWrite s.version k).encode [])
          ((MvccKey.Version k s.version).encode) (encOptBytes val) := writeInner_ok_eq hw
      rw [he2]
      refine mem_engSet_of_ne ?_ (TWkey_ne_VersionKey s.version k0 k s.version)
      by_cases hk : (MvccKey.TxnWrite s.version k0).encode
          = (MvccKey.TxnWrite s.version k).encode
      · rw [hk]
        exact mem_engSet_self _ _ _
      · exact mem_engSet_of_ne hm hk

lemma runWrites_pres_Ver (s : TxnState) (k0 : Bytes) :
    ∀ (ops : List (Bytes × Option Bytes)) (e e1 : Eng),
      runWrites s e ops = .ok e1 →
      engGet e ((MvccKey.Version k0 s.version).encode) ≠ none →
      engGet e1 ((MvccKey.Version k0 s.version).encode) ≠ none := by
  intro ops
  induction ops with
  | nil =>
    intro e e1 h hm
    rw [runWrites] at h
    injection h with h
    exact h ▸ hm
  | cons op rest ih =>
    intro e e1 h hm
    obtain ⟨k, val⟩ := op
    rw [runWrites] at h
    cases hw : writeInner e s k val with
    | error err => rw [hw] at h; cases h
    | ok e2 =>
      rw [hw] at h
      refine ih e2 e1 h ?_
      have he2 : e2 = engSet (engSet e (MvccKey.TxnWrite s.version k).encode [])
          ((MvccKey.Version k s.version).encode) (encOptBytes val) := writeInner_ok_eq hw
      rw [he2, engGet_engSet]
      by_cases h1 : (MvccKey.Version k0 s.version).encode
          = (MvccKey.Version k s.version).encode
      · simp [h1]
      · rw [if_neg h1, engGet_engSet,
          if_neg (ne_symm' (TWkey_ne_VersionKey s.version k k0 s.version))]
        exact hm

/-- Characterization of the engine after a successful write script:
untouched keys keep their lookups, every written key has its `TxnWrite`
marker pair and a non-absent `Version` cell, and every entry either
pre-existed or is one of the transaction's `TxnWrite`/`Version` keys. -/
lemma runWrites_charact (s : TxnState) :
    ∀ (ops : List (Bytes × Option Bytes)) (e e1 : Eng),
      runWrites s e ops = .ok e1 →
      ((∀ q : Bytes,
          (∀ kv ∈ ops, q ≠ (MvccKey.TxnWrite s.version kv.1).encode
            ∧ q ≠ (MvccKey.Version kv.1 s.version).encode) →
          engGet e1 q = engGet e q)
        ∧ (∀ kv ∈ ops, ((MvccKey.TxnWrite s.version kv.1).encode, ([] : Bytes)) ∈ e1)
        ∧ (∀ kv ∈ ops, engGet e1 ((MvccKey.Version kv.1 s.version).encode) ≠ none)
        ∧ (∀ x ∈ e1, x ∈ e ∨ ∃ kv ∈ ops,
            x.1 = (MvccKey.TxnWrite s.version kv.1).encode
            ∨ x.1 = (MvccKey.Version kv.1 s.version).encode)) := by
  intro ops
  induction ops with
  | nil =>
    intro e e1 h
    rw [runWrites] at h
    injection h with h
    subst h
    exact ⟨fun q _ => rfl, by simp, by simp, fun x hx => Or.inl hx⟩
  | cons op rest ih =>
    intro e e1 h
    obtain ⟨k, val⟩ := op
    rw [runWrites] at h
    cases hw : writeInner e s k val with
    | error err => rw [hw] at h; cases h
    | ok e2 =>
      rw [hw] at h
      obtain ⟨A, B, C, D⟩ := ih e2 e1 h
      have he2 : e2 = engSet (engSet e (MvccKey.TxnWrite s.version k).encode [])
          ((MvccKey.Version k s.version).encode) (encOptBytes val) := writeInner_ok_eq hw
      refine ⟨?_, ?_, ?_, ?_⟩
      · intro q hq
        have hqa : q ≠ (MvccKey.TxnWrite s.version k).encode :=
          (hq (k, val) (List.mem_cons_self _ _)).1
        have hqb : q ≠ (MvccKey.Version k s.version).encode :=
          (hq (k, val) (List.mem_cons_self _ _)).2
        rw [A q (fun kv hkv => hq kv (List.mem_cons_of_mem _ hkv)), he2,
          engGet_engSet, if_neg hqb, engGet_engSet, if_neg hqa]
      · intro kv hkv
        rcases List.mem_cons.mp hkv with h1 | h1
        · subst h1
          show ((MvccKey.TxnWrite s.version k).encode, ([] : Bytes)) ∈ e1
          refine runWrites_pres_TW s k rest e2 e1 h ?_
          rw [he2]
          refine mem_engSet_of_ne ?_ (TWkey_ne_VersionKey s.version k k s.version)
          exact mem_engSet_self _ _ _
        · exact B kv h1
      · intro kv hkv
        rcases List.mem_cons.mp hkv with h1 | h1
        · subst h1
          show engGet e1 ((MvccKey.Version k s.version).encode) ≠ none
          refine runWrites_pres_Ver s k rest e2 e1 h ?_
          rw [he2, engGet_engSet, if_pos rfl]
          simp
        · exact C kv h1
      · intro x hx
        rcases D x hx with h1 | h1
        · rw [he2] at h1
          rcases mem_engSet_elim h1 with h2 | h2
          · exact Or.inr ⟨(k, val), List.mem_cons_self _ _, Or.inr (congrArg Prod.fst h2)⟩
          · rcases mem_engSet_elim h2 with h3 | h3
            · exact Or.inr ⟨(k, val), List.mem_cons_self _ _, Or.inl (congrArg Prod.fst h3)⟩
            · exact Or.inl h3
        · obtain ⟨kv, hkv, hor⟩ := h1
          exact Or.inr ⟨kv, List.mem_cons_of_mem _ hkv, hor⟩

lemma rollbackKeys_ok (v : Nat) (hv : v < 2 ^ 64) (ops : List (Bytes × Option Bytes))
    (hops : ∀ kv ∈ ops, (kv.1 : Bytes).length < 2 ^ 64) :
    ∀ (l : List (Bytes × Bytes)),
      (∀ x ∈ l, ∃ kv ∈ ops, x.1 = (MvccKey.TxnWrite v kv.1).encode) →
      ∃ dels, rollbackKeys v l = .ok dels
        ∧ (∀ d ∈ dels, ∃ kv ∈ ops,
            d = (MvccKey.Version kv.1 v).encode ∨ d = (MvccKey.TxnWrite v kv.1).encode)
        ∧ (∀ x ∈ l, x.1 ∈ dels)
        ∧ (∀ x ∈ l, ∀ kv ∈ ops, x.1 = (MvccKey.TxnWrite v kv.1).encode →
            (MvccKey.Version kv.1 v).encode ∈ dels) := by
  intro l
  induction l with
  | nil => exact fun _ => ⟨[], rfl, by simp, by simp, by simp⟩
  | cons x rest ih =>
    intro hl
    obtain ⟨kv, hkv, hxeq⟩ := hl x (List.mem_cons_self _ _)
    obtain ⟨dels, hdels, hd1, hd2, hd3⟩ := ih (fun y hy => hl y (List.mem_cons_of_mem _ hy))
    obtain ⟨kq, vq⟩ := x
    simp only at hxeq
    refine ⟨(MvccKey.Version kv.1 v).encode :: kq :: dels, ?_, ?_, ?_, ?_⟩
    · rw [rollbackKeys, hxeq, mvccDecode_TW v kv.1 hv (hops kv hkv), hdels]
      rfl
    · intro d hd
      rcases List.mem_cons.mp hd with h1 | h1
      · exact ⟨kv, hkv, Or.inl h1⟩
      · rcases List.mem_cons.mp h1 with h2 | h2
        · exact ⟨kv, hkv, Or.inr (h2.trans hxeq)⟩
        · exact hd1 d h2
    · intro y hy
      rcases List.mem_cons.mp hy with h1 | h1
      · subst h1
        exact List.mem_cons_of_mem _ (List.mem_cons_self _ _)
      · exact List.mem_cons_of_mem _ (List.mem_cons_of_mem _ (hd2 y h1))
    · intro y hy kv2 hkv2 hyeq
      rcases List.mem_cons.mp hy with h1 | h1
      · subst h1
        simp only at hyeq
        have hda : mvccDecode kq = some (.TxnWrite v kv.1) := by
          rw [hxeq]
          exact mvccDecode_TW v kv.1 hv (hops kv hkv)
        have hdb : mvccDecode kq = some (.TxnWrite v kv2.1) := by
          rw [hyeq]
          exact mvccDecode_TW v kv2.1 hv (hops kv2 hkv2)
        have heq : kv2.1 = kv.1 := by
          rw [hda] at hdb
          injection hdb with hdb2
          injection hdb2 with hdb3 hdb4
          exact hdb4.symm
        rw [heq]
        exact List.mem_cons_self _ _
      · exact List.mem_cons_of_mem _
          (List.mem_cons_of_mem _ (hd3 y h1 kv2 hkv2 hyeq))

/-- Claim C5: for a transaction at version `v` (below `2 ^ 56`; versions
are allocated from 0) whose writes all succeeded on an engine holding no
prior key in the transaction's `TxnWrite` scan range, `rollback()` returns
`Ok` and removes every `Version(k, v)` record written by the transaction
together with all its `TxnWrite` markers and its `TxnActive` marker, and
every other key reads exactly as before the writes — a transaction begun
after the rollback reads the pre-transaction values; `commit()` leaves all
the transaction's `Version` records in place (still present) and removes
only the `TxnWrite` markers and the `TxnActive` marker, leaving every key
outside that scan range untouched. -/
theorem claim_C5 (s : TxnState) (e0 e1 : Eng) (ops : List (Bytes × Option Bytes))
    (hv : s.version < 2 ^ 56)
    (hlen : ∀ kv ∈ ops, (kv.1 : Bytes).length < 2 ^ 64)
    (h0 : ∀ x ∈ e0, pfxRangePred (MvccKeyPfx.TxnWrite s.version).encode x.1 = false)
    (hrun : runWrites s e0 ops = .ok e1) :
    (txnRollback e1 s).isOk = true
    ∧ (∀ e2, txnRollback e1 s = .ok e2 →
        (∀ kv ∈ ops, engGet e2 ((MvccKey.Version kv.1 s.version).encode) = none
          ∧ engGet e2 ((MvccKey.TxnWrite s.version kv.1).encode) = none)
        ∧ engGet e2 ((MvccKey.TxnActive s.version).encode) = none
        ∧ (∀ q : Bytes, pfxRangePred (MvccKeyPfx.TxnWrite s.version).encode q = false →
            q ≠ (MvccKey.TxnActive s.version).encode →
            (∀ kv ∈ ops, q ≠ (MvccKey.Version kv.1 s.version).encode) →
            engGet e2 q = engGet e0 q))
    ∧ (∀ kv ∈ ops,
        engGet (txnCommit e1 s) ((MvccKey.Version kv.1 s.version).encode)
          = engGet e1 ((MvccKey.Version kv.1 s.version).encode)
        ∧ engGet e1 ((MvccKey.Version kv.1 s.version).encode) ≠ none
        ∧ engGet (txnCommit e1 s) ((MvccKey.TxnWrite s.version kv.1).encode) = none)
    ∧ engGet (txnCommit e1 s) ((MvccKey.TxnActive s.version).encode) = none
    ∧ (∀ q : Bytes, pfxRangePred (MvccKeyPfx.TxnWrite s.version).encode q = false →
        q ≠ (MvccKey.TxnActive s.version).encode →
        engGet (txnCommit e1 s) q = engGet e1 q) := by
  obtain ⟨A, B, C, D⟩ := runWrites_charact s ops e0 e1 hrun
  have hv64 : s.version < 2 ^ 64 := by
    have h2 : (2 : Nat) ^ 56 < 2 ^ 64 := by norm_num
    omega
  have hsound : ∀ x ∈ engScanPfx e1 (MvccKeyPfx.TxnWrite s.version).encode,
      ∃ kv ∈ ops, x.1 = (MvccKey.TxnWrite s.version kv.1).encode := by
    intro x hx
    rw [engScanPfx, List.mem_filter] at hx
    obtain ⟨hx1, hpred⟩ := hx
    rcases D x hx1 with h1 | ⟨kv, hkv, hor⟩
    · rw [h0 x h1] at hpred
      cases hpred
    · rcases hor with h2 | h2
      · exact ⟨kv, hkv, h2⟩
      · rw [h2, pred_Version_false s.version hv kv.1 s.version] at hpred
        cases hpred
  have hcomp : ∀ kv ∈ ops, ((MvccKey.TxnWrite s.version kv.1).encode, ([] : Bytes))
      ∈ engScanPfx e1 (MvccKeyPfx.TxnWrite s.version).encode := by
    intro kv hkv
    rw [engScanPfx, List.mem_filter]
    exact ⟨B kv hkv, pred_TW_key s.version hv kv.1⟩
  obtain ⟨dels, hdels, hd1, hd2, hd3⟩ := rollbackKeys_ok s.version hv64 ops hlen _ hsound
  have hrb : txnRollback e1 s
      = .ok (engDel (dels.foldl engDel e1) (MvccKey.TxnActive s.version).encode) := by
    unfold txnRollback
    rw [hdels]
    rfl
  have hVdels : ∀ kv ∈ ops, (MvccKey.Version kv.1 s.version).encode ∈ dels :=
    fun kv hkv => hd3 _ (hcomp kv hkv) kv hkv rfl
  have hTWdels : ∀ kv ∈ ops, (MvccKey.TxnWrite s.version kv.1).encode ∈ dels :=
    fun kv hkv => hd2 _ (hcomp kv hkv)
  refine ⟨by rw [hrb]; rfl, ?_, ?_, ?_, ?_⟩
  · intro e2 he2
    rw [hrb] at he2
    injection he2 with he2
    subst he2
    refine ⟨?_, ?_, ?_⟩
    · intro kv hkv
      constructor
      · rw [engGet_engDel, if_neg (VersionKey_ne_TxnActive kv.1 s.version s.version),
          engGet_foldl_engDel, if_pos (hVdels kv hkv)]
      · rw [engGet_engDel, if_neg (TWkey_ne_TxnActive s.version kv.1 s.version),
          engGet_foldl_engDel, if_pos (hTWdels kv hkv)]
    · rw [engGet_engDel, if_pos rfl]
    · intro q hq1 hq2 hq3
      have hqd : q ∉ dels := by
        intro hqd
        rcases hd1 q hqd with ⟨kv, hkv, hor⟩
        rcases hor with h2 | h2
        · exact hq3 kv hkv h2
        · rw [h2, pred_TW_key s.version hv kv.1] at hq1
          cases hq1
      rw [engGet_engDel, if_neg hq2, engGet_foldl_engDel, if_neg hqd]
      refine A q ?_
      intro kv hkv
      refine ⟨?_, hq3 kv hkv⟩
      intro heq
      rw [heq, pred_TW_key s.version hv kv.1] at hq1
      cases hq1
  · intro kv hkv
    refine ⟨?_, C kv hkv, ?_⟩
    · have hnm : (MvccKey.Version kv.1 s.version).encode
          ∉ (engScanPfx e1 (MvccKeyPfx.TxnWrite s.version).encode).map Prod.fst := by
        intro hmem
        rw [List.mem_map] at hmem
        obtain ⟨x, hx, hxeq⟩ := hmem
        obtain ⟨kv2, hkv2, hkeq⟩ := hsound x hx
        rw [hkeq] at hxeq
        exact TWkey_ne_VersionKey s.version kv2.1 kv.1 s.version hxeq
      rw [txnCommit, engGet_engDel,
        if_neg (VersionKey_ne_TxnActive kv.1 s.version s.version),
        engGet_foldl_engDel, if_neg hnm]
    · have hm : (MvccKey.TxnWrite s.version kv.1).encode
          ∈ (engScanPfx e1 (MvccKeyPfx.TxnWrite s.version).encode).map Prod.fst :=
        List.mem_map_of_mem Prod.fst (hcomp kv hkv)
      rw [txnCommit, engGet_engDel,
        if_neg (TWkey_ne_TxnActive s.version kv.1 s.version),
        engGet_foldl_engDel, if_pos hm]
  · rw [txnCommit, engGet_engDel, if_pos rfl]
  · intro q hq1 hq2
    have hnm : q ∉ (engScanPfx e1 (MvccKeyPfx.TxnWrite s.version).encode).map Prod.fst := by
      intro hmem
      rw [List.mem_map] at hmem
      obtain ⟨x, hx, hxeq⟩ := hmem
      obtain ⟨kv2, hkv2, hkeq⟩ := hsound x hx
      rw [hkeq] at hxeq
      rw [← hxeq, pred_TW_key s.version hv kv2.1] at hq1
      cases hq1
    rw [txnCommit, engGet_engDel, if_neg hq2, engGet_foldl_engDel, if_neg hnm]


/-- Write script used to witness claim C5: one `set` of key `[107]`. -/
def c5ops : List (Bytes × Option Bytes) := [([107], some [1])]

/-- Engine after running `c5ops` in the transaction of `tblBegin`. -/
def c5e1 : Eng :=
  match runWrites tblS tblE0 c5ops with
  | .ok e => e
  | .error _ => []

/-- Witness for claim C5: all hypotheses discharged at the concrete
single-write transaction; its rollback returns `Ok`. -/
theorem claim_C5_witness : (txnRollback c5e1 tblS).isOk = true :=
  (claim_C5 tblS tblE0 c5e1 c5ops (by decide) (by decide) (by decide) (by decide)).1

end MiniSqldb
